import Mathlib

/-!
Verification of the incremental-ingestion and query logic of a small RAG
(retrieval-augmented generation) repository consisting of `ingest.py`,
`api.py` and `test.py`.

The embedding below is a shallow one:

* `Ledger` models the on-disk hash ledger `hashes.json`, a JSON object
  mapping content-hash strings to filename strings.  Python dictionaries
  preserve insertion order and `hash_db[chunk_hash] = filename` is only
  executed when the key is absent, so the ledger is faithfully modelled as
  an association list to which fresh keys are appended at the end.
* `processChunks` models the inner loop of `ingest.py` (lines 73-78): for
  each chunk of one file, compute the digest of the chunk text, skip the
  chunk when the digest is already a ledger key, otherwise record
  digest ↦ filename and mark the chunk as new.
* `collectDocs` models the outer loop over the files of the data
  directory (lines 55-80), accumulating `all_docs`.
* `ingestRun` models one whole run of the script: collect the new chunks,
  call `vectorstore.add_documents` on them when there are any (line 84),
  and persist the in-memory ledger with `json.dump` (lines 90-91) — a step
  that is only reached when the store call did not raise.
* `loadAll` / `ingestRunFromDir` model the same run when reading a source
  file may fail: `TextLoader(path).load()` is not wrapped in any handler,
  so the first raised exception aborts the whole script.

The digest function (`md5(...).hexdigest()` over the UTF-8 encoding of the
chunk text) and the text splitter (`RecursiveCharacterTextSplitter`) are
third-party; they enter the model as function parameters `md5hex` and
`split`, which is faithful to the only fact `ingest.py` relies on: both are
pure functions of the text.
-/

abbrev Hash := String

/-- The hash ledger: an association list from content hash to source
filename, in insertion order, mirroring the JSON object in `hashes.json`. -/
abbrev Ledger := List (Hash × String)

/-- Membership test for a hash among the ledger keys, modelling
`chunk_hash in hash_db`. -/
def ledgerMem (h : Hash) (db : Ledger) : Bool :=
  db.any (fun p => p.1 == h)

/-- A chunk as built in `ingest.py`: the split text (`page_content`) plus
the `source` filename attached as metadata. -/
structure Chunk where
  page_content : String
  source : String
deriving DecidableEq, Repr

/-- The inner loop of `ingest.py` (lines 73-78): for each chunk text of one
file, hash it; if the hash is already a ledger key the chunk is skipped,
otherwise the hash is recorded against the filename and the chunk is added
to `new_chunks`.  Returns the updated ledger and the new chunks in order. -/
def processChunks (md5hex : String → Hash) (filename : String) :
    List String → Ledger → Ledger × List Chunk
  | [], db => (db, [])
  | t :: ts, db =>
    if ledgerMem (md5hex t) db then
      processChunks md5hex filename ts db
    else
      let r := processChunks md5hex filename ts (db ++ [(md5hex t, filename)])
      (r.1, { page_content := t, source := filename } :: r.2)

/-- The outer loop of `ingest.py` (lines 55-80): each file is split into
chunk texts and fed to `processChunks`; the new chunks of every file are
accumulated into `all_docs`.  A file is the pair (filename, content). -/
def collectDocs (md5hex : String → Hash) (split : String → List String) :
    List (String × String) → Ledger → Ledger × List Chunk
  | [], db => (db, [])
  | (filename, content) :: rest, db =>
    let r1 := processChunks md5hex filename (split content) db
    let r2 := collectDocs md5hex split rest r1.1
    (r2.1, r1.2 ++ r2.2)

/-- Observable outcome of one ingestion run: the batch handed to
`vectorstore.add_documents`, whether that call happened, the contents of
`hashes.json` after the run, and whether the script reached its final
success message. -/
structure RunResult where
  all_docs : List Chunk
  storeCalled : Bool
  diskLedger : Ledger
  succeeded : Bool
deriving DecidableEq, Repr

/-- One run of `ingest.py` starting from the ledger `disk0` found on disk.
`storeOk` says whether `vectorstore.add_documents` would succeed if called.
When `all_docs` is empty the store is never called and the ledger is dumped
as-is; when the store call raises, the script dies before `json.dump`, so
the file on disk keeps its previous contents `disk0`. -/
def ingestRun (md5hex : String → Hash) (split : String → List String)
    (storeOk : Bool) (files : List (String × String)) (disk0 : Ledger) :
    RunResult :=
  let r := collectDocs md5hex split files disk0
  if r.2.isEmpty then
    { all_docs := [], storeCalled := false, diskLedger := r.1, succeeded := true }
  else if storeOk then
    { all_docs := r.2, storeCalled := true, diskLedger := r.1, succeeded := true }
  else
    { all_docs := r.2, storeCalled := true, diskLedger := disk0, succeeded := false }

-- ### Basic lemmas about the ledger and the two loops

theorem ledgerMem_append (h : Hash) (db e : Ledger) :
    ledgerMem h (db ++ e) = (ledgerMem h db || ledgerMem h e) := by
  simp [ledgerMem, List.any_append]

theorem ledgerMem_single (h h' : Hash) (f : String) :
    ledgerMem h [(h', f)] = (h' == h) := by
  simp [ledgerMem]

/-- Hashes present in the ledger stay present through `processChunks`. -/
theorem processChunks_fst_mono (md5hex : String → Hash) (f : String) :
    ∀ (ts : List String) (db : Ledger) (h : Hash),
      ledgerMem h db = true →
      ledgerMem h (processChunks md5hex f ts db).1 = true := by
  intro ts
  induction ts with
  | nil => intro db h hm; simpa [processChunks] using hm
  | cons t ts ih =>
    intro db h hm
    rw [processChunks]
    split
    · exact ih db h hm
    · exact ih _ h (by rw [ledgerMem_append, hm]; rfl)

/-- After `processChunks`, the hash of every processed chunk text is a key
of the resulting ledger. -/
theorem processChunks_fst_complete (md5hex : String → Hash) (f : String) :
    ∀ (ts : List String) (db : Ledger) (t : String), t ∈ ts →
      ledgerMem (md5hex t) (processChunks md5hex f ts db).1 = true := by
  intro ts
  induction ts with
  | nil => intro db t ht; cases ht
  | cons a ts ih =>
    intro db t ht
    rw [processChunks]
    rcases List.mem_cons.mp ht with h1 | h1
    · subst h1
      split
      · rename_i hg
        exact processChunks_fst_mono md5hex f ts db _ hg
      · refine processChunks_fst_mono md5hex f ts _ _ ?_
        rw [ledgerMem_append, ledgerMem_single]
        simp
    · split
      · exact ih db t h1
      · exact ih _ t h1

/-- When every chunk hash of a file is already in the ledger, the inner
loop neither changes the ledger nor marks any chunk as new. -/
theorem processChunks_stable (md5hex : String → Hash) (f : String) :
    ∀ (ts : List String) (db : Ledger),
      (∀ t ∈ ts, ledgerMem (md5hex t) db = true) →
      processChunks md5hex f ts db = (db, []) := by
  intro ts
  induction ts with
  | nil => intro db _; rfl
  | cons a ts ih =>
    intro db hall
    rw [processChunks]
    have ha : ledgerMem (md5hex a) db = true := hall a (List.mem_cons_self a ts)
    rw [if_pos ha]
    exact ih db (fun t ht => hall t (List.mem_cons_of_mem a ht))

/-- The inner loop only appends to the ledger; every appended entry carries
the current filename as value and a key that was not yet in the ledger. -/
theorem processChunks_append_form (md5hex : String → Hash) (f : String) :
    ∀ (ts : List String) (db : Ledger),
      ∃ E : Ledger, (processChunks md5hex f ts db).1 = db ++ E ∧
        ∀ p ∈ E, p.2 = f ∧ ledgerMem p.1 db = false := by
  intro ts
  induction ts with
  | nil => intro db; exact ⟨[], by simp [processChunks]⟩
  | cons a ts ih =>
    intro db
    rw [processChunks]
    split
    · exact ih db
    · rename_i hg
      obtain ⟨E, hE, hprop⟩ := ih (db ++ [(md5hex a, f)])
      refine ⟨(md5hex a, f) :: E, ?_, ?_⟩
      · simpa using hE
      · intro p hp
        rcases List.mem_cons.mp hp with h1 | h1
        · subst h1
          exact ⟨rfl, by simpa using hg⟩
        · obtain ⟨hv, hfresh⟩ := hprop p h1
          refine ⟨hv, ?_⟩
          rw [ledgerMem_append] at hfresh
          exact (Bool.or_eq_false_iff.mp hfresh).1

/-- If the inner loop marks no chunk as new, it leaves the ledger alone. -/
theorem processChunks_snd_nil (md5hex : String → Hash) (f : String) :
    ∀ (ts : List String) (db : Ledger),
      (processChunks md5hex f ts db).2 = [] →
      (processChunks md5hex f ts db).1 = db := by
  intro ts
  induction ts with
  | nil => intro db _; rfl
  | cons a ts ih =>
    intro db hnil
    rw [processChunks] at hnil ⊢
    split
    · rename_i hg
      rw [if_pos hg] at hnil
      exact ih db hnil
    · rename_i hg
      rw [if_neg hg] at hnil
      simp at hnil

/-- Every chunk marked as new by the inner loop had a hash that was not yet
in the ledger the loop started from. -/
theorem processChunks_chunks_fresh (md5hex : String → Hash) (f : String) :
    ∀ (ts : List String) (db : Ledger),
      ∀ c ∈ (processChunks md5hex f ts db).2,
        ledgerMem (md5hex c.page_content) db = false := by
  intro ts
  induction ts with
  | nil => intro db c hc; simp [processChunks] at hc
  | cons a ts ih =>
    intro db c hc
    rw [processChunks] at hc
    split at hc
    · exact ih db c hc
    · rename_i hg
      rcases List.mem_cons.mp hc with h1 | h1
      · subst h1; simpa using hg
      · have := ih _ c h1
        rw [ledgerMem_append] at this
        exact (Bool.or_eq_false_iff.mp this).1

/-- Every chunk marked as new by the inner loop is one of the file's chunk
texts and carries the file's name as its source metadata. -/
theorem processChunks_chunks_src (md5hex : String → Hash) (f : String) :
    ∀ (ts : List String) (db : Ledger),
      ∀ c ∈ (processChunks md5hex f ts db).2,
        c.page_content ∈ ts ∧ c.source = f := by
  intro ts
  induction ts with
  | nil => intro db c hc; simp [processChunks] at hc
  | cons a ts ih =>
    intro db c hc
    rw [processChunks] at hc
    split at hc
    · obtain ⟨h1, h2⟩ := ih db c hc
      exact ⟨List.mem_cons_of_mem a h1, h2⟩
    · rcases List.mem_cons.mp hc with h1 | h1
      · subst h1; exact ⟨List.mem_cons_self a ts, rfl⟩
      · obtain ⟨h2, h3⟩ := ih _ c h1
        exact ⟨List.mem_cons_of_mem a h2, h3⟩

/-- The hashes of the chunks marked as new by the inner loop are pairwise
distinct: a text occurring twice in one file is only marked once. -/
theorem processChunks_chunks_nodup (md5hex : String → Hash) (f : String) :
    ∀ (ts : List String) (db : Ledger),
      ((processChunks md5hex f ts db).2.map
        (fun c => md5hex c.page_content)).Nodup := by
  intro ts
  induction ts with
  | nil => intro db; simp [processChunks]
  | cons a ts ih =>
    intro db
    rw [processChunks]
    split
    · exact ih db
    · rename_i hg
      simp only [List.map_cons, List.nodup_cons]
      refine ⟨?_, ih _⟩
      intro hmem
      obtain ⟨c, hc, hceq⟩ := List.mem_map.mp hmem
      have hfresh := processChunks_chunks_fresh md5hex f ts _ c hc
      rw [ledgerMem_append, ledgerMem_single] at hfresh
      rw [hceq] at hfresh
      simp at hfresh

/-- Any chunk text whose hash is absent from the starting ledger is
represented among the chunks the inner loop marks as new. -/
theorem processChunks_represents (md5hex : String → Hash) (f : String) :
    ∀ (ts : List String) (db : Ledger) (t : String), t ∈ ts →
      ledgerMem (md5hex t) db = false →
      ∃ c ∈ (processChunks md5hex f ts db).2,
        md5hex c.page_content = md5hex t := by
  intro ts
  induction ts with
  | nil => intro db t ht; cases ht
  | cons a ts ih =>
    intro db t ht hfresh
    rw [processChunks]
    rcases List.mem_cons.mp ht with h1 | h1
    · subst h1
      rw [if_neg (by simp [hfresh])]
      exact ⟨{ page_content := t, source := f }, List.mem_cons_self _ _, rfl⟩
    · split
      · exact ih db t h1 hfresh
      · rename_i hg
        by_cases hcase : ledgerMem (md5hex t) (db ++ [(md5hex a, f)]) = true
        · rw [ledgerMem_append, hfresh, ledgerMem_single] at hcase
          simp only [Bool.false_or, beq_iff_eq] at hcase
          refine ⟨{ page_content := a, source := f }, List.mem_cons_self _ _, ?_⟩
          exact hcase
        · obtain ⟨c, hc, hceq⟩ := ih _ t h1 (Bool.eq_false_iff.mpr hcase)
          exact ⟨c, List.mem_cons_of_mem _ hc, hceq⟩

/-- A hash that is a key of the ledger after the inner loop but was not one
before corresponds to a chunk the loop marked as new. -/
theorem processChunks_new_entry_chunk (md5hex : String → Hash) (f : String) :
    ∀ (ts : List String) (db : Ledger) (h : Hash),
      ledgerMem h (processChunks md5hex f ts db).1 = true →
      ledgerMem h db = false →
      ∃ c ∈ (processChunks md5hex f ts db).2, md5hex c.page_content = h := by
  intro ts
  induction ts with
  | nil =>
    intro db h hafter hbefore
    simp only [processChunks] at hafter
    rw [hafter] at hbefore
    cases hbefore
  | cons a ts ih =>
    intro db h hafter hbefore
    rw [processChunks] at hafter ⊢
    split at hafter
    · rename_i hg
      rw [if_pos hg]
      exact ih db h hafter hbefore
    · rename_i hg
      rw [if_neg hg]
      by_cases hcase : h = md5hex a
      · subst hcase
        exact ⟨{ page_content := a, source := f }, List.mem_cons_self _ _, rfl⟩
      · have hfresh : ledgerMem h (db ++ [(md5hex a, f)]) = false := by
          rw [ledgerMem_append, hbefore, ledgerMem_single]
          simp [Ne.symm hcase]
        obtain ⟨c, hc, hceq⟩ := ih _ h hafter hfresh
        exact ⟨c, List.mem_cons_of_mem _ hc, hceq⟩

/-- Hashes present in the ledger stay present through the whole directory
walk. -/
theorem collectDocs_fst_mono (md5hex : String → Hash)
    (split : String → List String) :
    ∀ (files : List (String × String)) (db : Ledger) (h : Hash),
      ledgerMem h db = true →
      ledgerMem h (collectDocs md5hex split files db).1 = true := by
  intro files
  induction files with
  | nil => intro db h hm; simpa [collectDocs] using hm
  | cons fc rest ih =>
    intro db h hm
    obtain ⟨filename, content⟩ := fc
    rw [collectDocs]
    exact ih _ h (processChunks_fst_mono md5hex filename (split content) db h hm)

/-- After the directory walk, the hash of every chunk text of every file is
a key of the in-memory ledger. -/
theorem collectDocs_fst_complete (md5hex : String → Hash)
    (split : String → List String) :
    ∀ (files : List (String × String)) (db : Ledger),
      ∀ fc ∈ files, ∀ t ∈ split fc.2,
        ledgerMem (md5hex t) (collectDocs md5hex split files db).1 = true := by
  intro files
  induction files with
  | nil => intro db fc hfc; cases hfc
  | cons fc0 rest ih =>
    intro db fc hfc t ht
    obtain ⟨filename, content⟩ := fc0
    rw [collectDocs]
    rcases List.mem_cons.mp hfc with h1 | h1
    · subst h1
      exact collectDocs_fst_mono md5hex split rest _ _
        (processChunks_fst_complete md5hex filename (split content) db t ht)
    · exact ih _ fc h1 t ht

/-- When every chunk hash of every file is already in the ledger, the walk
changes nothing and marks no chunk as new. -/
theorem collectDocs_stable (md5hex : String → Hash)
    (split : String → List String) :
    ∀ (files : List (String × String)) (db : Ledger),
      (∀ fc ∈ files, ∀ t ∈ split fc.2, ledgerMem (md5hex t) db = true) →
      collectDocs md5hex split files db = (db, []) := by
  intro files
  induction files with
  | nil => intro db _; rfl
  | cons fc0 rest ih =>
    intro db hall
    obtain ⟨filename, content⟩ := fc0
    rw [collectDocs]
    have h1 : processChunks md5hex filename (split content) db = (db, []) :=
      processChunks_stable md5hex filename (split content) db
        (fun t ht => hall (filename, content) (List.mem_cons_self _ _) t ht)
    have h2 : collectDocs md5hex split rest db = (db, []) :=
      ih db (fun fc hfc t ht => hall fc (List.mem_cons_of_mem _ hfc) t ht)
    simp [h1, h2]

/-- The directory walk only appends fresh keys to the ledger. -/
theorem collectDocs_append_form (md5hex : String → Hash)
    (split : String → List String) :
    ∀ (files : List (String × String)) (db : Ledger),
      ∃ E : Ledger, (collectDocs md5hex split files db).1 = db ++ E ∧
        ∀ p ∈ E, ledgerMem p.1 db = false := by
  intro files
  induction files with
  | nil => intro db; exact ⟨[], by simp [collectDocs]⟩
  | cons fc0 rest ih =>
    intro db
    obtain ⟨filename, content⟩ := fc0
    rw [collectDocs]
    obtain ⟨E1, hE1, hp1⟩ := processChunks_append_form md5hex filename (split content) db
    obtain ⟨E2, hE2, hp2⟩ := ih (processChunks md5hex filename (split content) db).1
    refine ⟨E1 ++ E2, ?_, ?_⟩
    · rw [hE2, hE1, List.append_assoc]
    · intro p hp
      rcases List.mem_append.mp hp with h1 | h1
      · exact (hp1 p h1).2
      · have := hp2 p h1
        rw [hE1, ledgerMem_append] at this
        exact (Bool.or_eq_false_iff.mp this).1

/-- If the directory walk marks no chunk as new, it leaves the in-memory
ledger exactly as loaded from disk. -/
theorem collectDocs_snd_nil (md5hex : String → Hash)
    (split : String → List String) :
    ∀ (files : List (String × String)) (db : Ledger),
      (collectDocs md5hex split files db).2 = [] →
      (collectDocs md5hex split files db).1 = db := by
  intro files
  induction files with
  | nil => intro db _; rfl
  | cons fc0 rest ih =>
    intro db hnil
    obtain ⟨filename, content⟩ := fc0
    rw [collectDocs] at hnil ⊢
    simp only [List.append_eq_nil] at hnil
    obtain ⟨h1, h2⟩ := hnil
    have h3 := processChunks_snd_nil md5hex filename (split content) db h1
    rw [ih _ h2, h3]

/-- Every chunk marked during the walk has a hash that was absent from the
ledger loaded from disk. -/
theorem collectDocs_chunks_fresh (md5hex : String → Hash)
    (split : String → List String) :
    ∀ (files : List (String × String)) (db : Ledger),
      ∀ c ∈ (collectDocs md5hex split files db).2,
        ledgerMem (md5hex c.page_content) db = false := by
  intro files
  induction files with
  | nil => intro db c hc; simp [collectDocs] at hc
  | cons fc0 rest ih =>
    intro db c hc
    obtain ⟨filename, content⟩ := fc0
    rw [collectDocs] at hc
    rcases List.mem_append.mp hc with h1 | h1
    · exact processChunks_chunks_fresh md5hex filename (split content) db c h1
    · have := ih _ c h1
      obtain ⟨E1, hE1, _⟩ := processChunks_append_form md5hex filename (split content) db
      rw [hE1, ledgerMem_append] at this
      exact (Bool.or_eq_false_iff.mp this).1

/-- Across the whole run, the chunks marked as new have pairwise distinct
hashes: a text occurring in several files (or several times in one file) is
marked at most once per run. -/
theorem collectDocs_chunks_nodup (md5hex : String → Hash)
    (split : String → List String) :
    ∀ (files : List (String × String)) (db : Ledger),
      ((collectDocs md5hex split files db).2.map
        (fun c => md5hex c.page_content)).Nodup := by
  intro files
  induction files with
  | nil => intro db; simp [collectDocs]
  | cons fc0 rest ih =>
    intro db
    obtain ⟨filename, content⟩ := fc0
    rw [collectDocs]
    simp only [List.map_append]
    rw [List.nodup_append]
    refine ⟨processChunks_chunks_nodup md5hex filename (split content) db, ih _, ?_⟩
    intro x hx hy
    obtain ⟨c, hc, hceq⟩ := List.mem_map.mp hx
    obtain ⟨c2, hc2, hc2eq⟩ := List.mem_map.mp hy
    have hin : ledgerMem x (processChunks md5hex filename (split content) db).1 = true := by
      rw [← hceq]
      have hsub := (processChunks_chunks_src md5hex filename (split content) db c hc).1
      exact processChunks_fst_complete md5hex filename (split content) db _ hsub
    have hout : ledgerMem x (processChunks md5hex filename (split content) db).1 = false := by
      rw [← hc2eq]
      exact collectDocs_chunks_fresh md5hex split rest _ c2 hc2
    rw [hout] at hin
    cases hin

/-- Any chunk text anywhere in the directory whose hash is absent from the
starting ledger is represented among the chunks marked as new. -/
theorem collectDocs_represents (md5hex : String → Hash)
    (split : String → List String) :
    ∀ (files : List (String × String)) (db : Ledger),
      ∀ fc ∈ files, ∀ t ∈ split fc.2,
        ledgerMem (md5hex t) db = false →
        ∃ c ∈ (collectDocs md5hex split files db).2,
          md5hex c.page_content = md5hex t := by
  intro files
  induction files with
  | nil => intro db fc hfc; cases hfc
  | cons fc0 rest ih =>
    intro db fc hfc t ht hfresh
    obtain ⟨filename, content⟩ := fc0
    rw [collectDocs]
    rcases List.mem_cons.mp hfc with h1 | h1
    · subst h1
      obtain ⟨c, hc, hceq⟩ :=
        processChunks_represents md5hex filename (split content) db t ht hfresh
      exact ⟨c, List.mem_append_left _ hc, hceq⟩
    · by_cases hcase :
        ledgerMem (md5hex t) (processChunks md5hex filename (split content) db).1 = true
      · obtain ⟨c, hc, hceq⟩ :=
          processChunks_new_entry_chunk md5hex filename (split content) db _ hcase hfresh
        exact ⟨c, List.mem_append_left _ hc, hceq⟩
      · obtain ⟨c, hc, hceq⟩ := ih _ fc h1 t ht (Bool.eq_false_iff.mpr hcase)
        exact ⟨c, List.mem_append_right _ hc, hceq⟩

-- ### Query service (`api.py`)

/-- Observable outcome of one GET /query request: HTTP status, the response
body as the pair (question, response) when the handler ran, and whether the
retrieval step and the generation step were executed. -/
structure QueryOutcome where
  status : Nat
  body : Option (String × String)
  retrievalRan : Bool
  generationRan : Bool
deriving DecidableEq, Repr

/-- The prompt template of `api.py` (lines 24-26) applied to its two
placeholders: the retrieved context and the question. -/
def promptText (context question : String) : String :=
  "Voici des extraits pertinents :\n" ++ context ++
    "\n\nQuestion : " ++ question ++ "\nRéponse :"

/-- The RAG chain of `api.py` (lines 29-33): retrieve context for the
question, fill the prompt template, and hand the prompt to the model.
`retrieve` models the retriever together with the stringification of the
retrieved documents; `llm` models the Ollama backend. -/
def ragChain (retrieve llm : String → String) (q : String) : String :=
  llm (promptText (retrieve q) q)

/-- Modelled from the spec: the HTTP validation layer in front of
`query_api` belongs to FastAPI, whose code is not part of the repository.
Per the spec, `q` is a required query parameter; `api.py` declares it as
`q: str = Query(...)`, so a request in which the parameter is absent fails
validation with a 422 client error before the handler runs, while any
present string — the empty string included, since `str` carries no length
constraint — reaches the handler, which invokes the chain and returns the
dictionary `{question, response}` (lines 43-45). -/
def queryEndpoint (retrieve llm : String → String) (q? : Option String) :
    QueryOutcome :=
  match q? with
  | none =>
    { status := 422, body := none, retrievalRan := false, generationRan := false }
  | some q =>
    { status := 200, body := some (q, ragChain retrieve llm q),
      retrievalRan := true, generationRan := true }

-- ### Ingestion with fallible file reads (`ingest.py` lines 56-62)

/-- Loading of all files of the data directory, in order, when a read may
fail: `TextLoader(path).load()` is called with no surrounding handler, so
the first exception propagates and no later file is read. -/
def loadAll : List (String × Except Unit String) →
    Except Unit (List (String × String))
  | [] => Except.ok []
  | (filename, c) :: rest =>
    match c with
    | Except.error e => Except.error e
    | Except.ok txt =>
      match loadAll rest with
      | Except.error e => Except.error e
      | Except.ok l => Except.ok ((filename, txt) :: l)

/-- One run of `ingest.py` over a directory whose entries may fail to read.
An exception raised while loading a file aborts the whole script: the store
is never called and `json.dump` is never reached, so the ledger file keeps
its previous contents. -/
def ingestRunFromDir (md5hex : String → Hash) (split : String → List String)
    (storeOk : Bool) (entries : List (String × Except Unit String))
    (disk0 : Ledger) : RunResult :=
  match loadAll entries with
  | Except.error _ =>
    { all_docs := [], storeCalled := false, diskLedger := disk0, succeeded := false }
  | Except.ok files => ingestRun md5hex split storeOk files disk0

-- ### Text splitter (spec model)

/-- Modelled from the spec: chunking is delegated to the third-party
`RecursiveCharacterTextSplitter(chunk_size=500, chunk_overlap=50)`
(`ingest.py` line 69), whose implementation is not part of the repository;
the spec's contract is that any deterministic splitter with a configurable
chunk size and overlap satisfies it.  This is the canonical such splitter:
a text of length at most `S` is a single chunk, otherwise the first `S`
characters form a chunk and splitting resumes `O` characters before their
end.  The degenerate configuration `S ≤ O` is mapped to a single chunk so
that the recursion terminates. -/
def slidingSplit (S O : Nat) (text : List Char) : List (List Char) :=
  if _h : text.length ≤ S ∨ S - O = 0 then [text]
  else text.take S :: slidingSplit S O (text.drop (S - O))
termination_by text.length
decreasing_by
  simp only [List.length_drop]
  omega

/-- The chunk-count formula asserted by the spec, read with the ordinary
(real-number) ceiling: ceil((L - O) / (S - O)). -/
def specChunkFormula (L S O : Nat) : Int :=
  ⌈((L : ℚ) - (O : ℚ)) / ((S : ℚ) - (O : ℚ))⌉

/-- Number of chunks the sliding splitter produces, in closed form, for a
text longer than the overlap. -/
theorem slidingSplit_length_aux (S O : Nat) (hSO : O < S) :
    ∀ n : Nat, ∀ text : List Char, text.length ≤ n → O < text.length →
      (slidingSplit S O text).length = (text.length - O - 1) / (S - O) + 1 := by
  intro n
  induction n with
  | zero => intro text h1 h2; omega
  | succ n ih =>
    intro text h1 h2
    rw [slidingSplit]
    split
    · rename_i hguard
      have hLS : text.length ≤ S := by omega
      have hz : (text.length - O - 1) / (S - O) = 0 :=
        Nat.div_eq_of_lt (by omega)
      simp [hz]
    · rename_i hguard
      have hgt : S < text.length := by omega
      have hlen : (text.drop (S - O)).length = text.length - (S - O) := by
        simp
      have hO : O < (text.drop (S - O)).length := by omega
      have hle : (text.drop (S - O)).length ≤ n := by omega
      rw [List.length_cons, ih _ hle hO, hlen]
      have hb : 0 < S - O := by omega
      have hba : S - O ≤ text.length - O - 1 := by omega
      rw [Nat.div_eq_sub_div hb hba]
      have harith : text.length - (S - O) - O - 1 = text.length - O - 1 - (S - O) := by
        omega
      rw [harith]

-- ### Bridge between Nat division and the rational ceiling

/-- Ceiling of a ratio of positive naturals, in terms of Nat division. -/
theorem ceil_ratCast_div (a b : Nat) (ha : 0 < a) (hb : 0 < b) :
    ⌈(a : ℚ) / (b : ℚ)⌉ = (((a - 1) / b : Nat) : Int) + 1 := by
  have hbq : (0 : ℚ) < (b : ℚ) := by exact_mod_cast hb
  have hq1 : (a - 1) / b * b ≤ a - 1 := Nat.div_mul_le_self _ _
  have hlt : (a - 1) / b * b < a := by omega
  have hdm : b * ((a - 1) / b) + (a - 1) % b = a - 1 := Nat.div_add_mod _ _
  have hm : (a - 1) % b < b := Nat.mod_lt _ hb
  have hc : (a - 1) / b * b = b * ((a - 1) / b) := Nat.mul_comm _ _
  have hub : a ≤ ((a - 1) / b + 1) * b := by
    rw [Nat.add_mul, Nat.one_mul]
    omega
  rw [Int.ceil_eq_iff]
  constructor
  · push_cast
    rw [add_sub_cancel_right, lt_div_iff₀ hbq]
    exact_mod_cast hlt
  · rw [div_le_iff₀ hbq]
    push_cast
    exact_mod_cast hub

-- ### The claims

/-- Claim C1: if the vector-store batch write (`vectorstore.add_documents`,
`ingest.py` line 84) fails, the script dies before `json.dump` (lines
90-91), so the run ends with the ledger file on disk exactly as it was
before the run — in particular it holds no hash recorded during this run
for a chunk that was never stored.  When no new chunk was found the store
is not called at all and the dumped ledger is again the loaded one. -/
theorem ledger_file_unchanged_on_store_failure
    (md5hex : String → Hash) (split : String → List String)
    (files : List (String × String)) (disk0 : Ledger) :
    (ingestRun md5hex split false files disk0).diskLedger = disk0 := by
  by_cases hE : (collectDocs md5hex split files disk0).2.isEmpty
  · rw [List.isEmpty_iff] at hE
    have h1 := collectDocs_snd_nil md5hex split files disk0 hE
    simp [ingestRun, hE, h1]
  · simp [ingestRun, hE]

/-- Claim C2: ingestion is idempotent.  A second run over the same files,
starting from the ledger persisted by a first successful run, marks zero
chunks as new and never calls `vectorstore.add_documents`. -/
theorem second_run_ingests_nothing
    (md5hex : String → Hash) (split : String → List String)
    (files : List (String × String)) (disk0 : Ledger) (ok2 : Bool) :
    (ingestRun md5hex split ok2 files
        (ingestRun md5hex split true files disk0).diskLedger).all_docs = [] ∧
    (ingestRun md5hex split ok2 files
        (ingestRun md5hex split true files disk0).diskLedger).storeCalled
      = false := by
  have hd1 : (ingestRun md5hex split true files disk0).diskLedger
      = (collectDocs md5hex split files disk0).1 := by
    by_cases hE : (collectDocs md5hex split files disk0).2.isEmpty
    · simp [ingestRun, hE]
    · simp [ingestRun, hE]
  have hstable :
      collectDocs md5hex split files (collectDocs md5hex split files disk0).1
        = ((collectDocs md5hex split files disk0).1, []) :=
    collectDocs_stable md5hex split files _
      (fun fc hfc t ht =>
        collectDocs_fst_complete md5hex split files disk0 fc hfc t ht)
  rw [hd1]
  constructor <;> simp [ingestRun, hstable]

/-- Claim C3: the digest (`md5(c.page_content.encode("utf-8")).hexdigest()`,
`ingest.py` line 75) is a function of the chunk text alone, so equal texts
get equal hashes; consequently, when two files with identical content are
ingested in one run, the run behaves exactly as if only the first file were
present: every ledger entry added is attributed to the first filename,
every marked chunk carries the first filename as source, and the second
file contributes nothing to the batch. -/
theorem chunk_hash_deterministic_and_duplicate_file_skipped
    (md5hex : String → Hash) (split : String → List String)
    (f1 f2 content : String) (disk0 : Ledger) :
    (∀ t1 t2 : String, t1 = t2 → md5hex t1 = md5hex t2) ∧
    collectDocs md5hex split [(f1, content), (f2, content)] disk0
      = processChunks md5hex f1 (split content) disk0 ∧
    (∃ E : Ledger,
      (collectDocs md5hex split [(f1, content), (f2, content)] disk0).1
        = disk0 ++ E ∧ ∀ p ∈ E, p.2 = f1) ∧
    ∀ c ∈ (collectDocs md5hex split [(f1, content), (f2, content)] disk0).2,
      c.source = f1 := by
  have hstab : processChunks md5hex f2 (split content)
      (processChunks md5hex f1 (split content) disk0).1
      = ((processChunks md5hex f1 (split content) disk0).1, []) :=
    processChunks_stable md5hex f2 (split content) _
      (fun t ht => processChunks_fst_complete md5hex f1 (split content) disk0 t ht)
  have hcoll : collectDocs md5hex split [(f1, content), (f2, content)] disk0
      = processChunks md5hex f1 (split content) disk0 := by
    rw [collectDocs, collectDocs, collectDocs]
    simp [hstab]
  refine ⟨fun t1 t2 h => by rw [h], hcoll, ?_, ?_⟩
  · obtain ⟨E, hE, hp⟩ := processChunks_append_form md5hex f1 (split content) disk0
    exact ⟨E, by rw [hcoll, hE], fun p hp2 => (hp p hp2).1⟩
  · intro c hc
    rw [hcoll] at hc
    exact (processChunks_chunks_src md5hex f1 (split content) disk0 c hc).2

/-- Claim C4 counterexample: a request whose `q` parameter is present but
empty is a valid `str` for FastAPI, so the handler runs: the similarity
search and the model call both happen and the response is a 200 success,
not a client error. -/
theorem empty_query_param_reaches_retrieval_and_generation :
    (queryEndpoint (fun _ => "ctx") (fun _ => "ans") (some "")).retrievalRan
        = true ∧
    (queryEndpoint (fun _ => "ctx") (fun _ => "ans") (some "")).generationRan
        = true ∧
    (queryEndpoint (fun _ => "ctx") (fun _ => "ans") (some "")).status = 200 :=
  ⟨rfl, rfl, rfl⟩

/-- Claim C4 (amended): only a request with the `q` parameter missing is
rejected — with a 422 client error, before any retrieval or generation —
while a request whose `q` is present, even as the empty string, is
processed normally: retrieval and generation both run and the request
succeeds. -/
theorem missing_query_param_rejected_before_retrieval
    (retrieve llm : String → String) :
    queryEndpoint retrieve llm none
      = { status := 422, body := none,
          retrievalRan := false, generationRan := false } ∧
    ∀ q : String,
      (queryEndpoint retrieve llm (some q)).status = 200 ∧
      (queryEndpoint retrieve llm (some q)).retrievalRan = true ∧
      (queryEndpoint retrieve llm (some q)).generationRan = true :=
  ⟨rfl, fun _ => ⟨rfl, rfl, rfl⟩⟩

/-- Claim C6: on every successful request the body is the two-field object
built in `api.py` line 45 — `question` is the input string unchanged and
`response` is exactly the text the model returned for the assembled
prompt. -/
theorem query_response_question_and_llm_text
    (retrieve llm : String → String) (q : String) :
    (queryEndpoint retrieve llm (some q)).status = 200 ∧
    (queryEndpoint retrieve llm (some q)).body
      = some (q, llm (promptText (retrieve q) q)) :=
  ⟨rfl, rfl⟩

/-- Claim C8: evaluation of the run at a directory whose first file fails
to read while the second is fine.  The run aborts wholesale: the readable
file `b.txt` is not processed, the store is never called and the ledger is
not persisted — whereas the same directory without the broken file ingests
`b.txt` normally.  This contradicts the spec's requirement that a read
failure abort only the failing file. -/
theorem read_error_aborts_whole_run :
    ingestRunFromDir (fun t => t) (fun s => [s]) true
        [("a.txt", Except.error ()), ("b.txt", Except.ok "hello")] []
      = { all_docs := [], storeCalled := false, diskLedger := [],
          succeeded := false } ∧
    ingestRunFromDir (fun t => t) (fun s => [s]) true
        [("b.txt", Except.ok "hello")] []
      = { all_docs := [{ page_content := "hello", source := "b.txt" }],
          storeCalled := true, diskLedger := [("hello", "b.txt")],
          succeeded := true } := by
  constructor <;> rfl

/-- The sequence of all chunk occurrences of a run, in the order the run
encounters them: files in directory order, and within a file its chunk
texts in split order, each paired with that file's name. -/
def allOccurrences (split : String → List String) :
    List (String × String) → List Chunk
  | [] => []
  | (filename, content) :: rest =>
    (split content).map (fun t => { page_content := t, source := filename })
      ++ allOccurrences split rest

/-- The first-occurrence policy of claim C9, stated directly on the
occurrence sequence: walk the occurrences in encounter order and keep an
occurrence exactly when its hash is not yet a ledger key, recording its
hash against its own source the moment it is kept — so of several
occurrences sharing a hash, only the earliest is ever kept. -/
def firstOccurrenceScan (md5hex : String → Hash) :
    List Chunk → Ledger → Ledger × List Chunk
  | [], db => (db, [])
  | c :: cs, db =>
    if ledgerMem (md5hex c.page_content) db then
      firstOccurrenceScan md5hex cs db
    else
      let r := firstOccurrenceScan md5hex cs
        (db ++ [(md5hex c.page_content, c.source)])
      (r.1, c :: r.2)

/-- The inner loop is the first-occurrence scan of one file's occurrence
sequence. -/
theorem processChunks_eq_scan (md5hex : String → Hash) (f : String) :
    ∀ (ts : List String) (db : Ledger),
      processChunks md5hex f ts db
        = firstOccurrenceScan md5hex
            (ts.map (fun t => { page_content := t, source := f })) db := by
  intro ts
  induction ts with
  | nil => intro db; rfl
  | cons t ts ih =>
    intro db
    simp only [List.map_cons]
    rw [processChunks, firstOccurrenceScan]
    split
    · exact ih db
    · rw [ih]

/-- The scan of a concatenated occurrence sequence is the scan of the first
part followed by the scan of the second part on the updated ledger. -/
theorem firstOccurrenceScan_append (md5hex : String → Hash) :
    ∀ (l1 l2 : List Chunk) (db : Ledger),
      firstOccurrenceScan md5hex (l1 ++ l2) db
        = ((firstOccurrenceScan md5hex l2
              (firstOccurrenceScan md5hex l1 db).1).1,
           (firstOccurrenceScan md5hex l1 db).2
              ++ (firstOccurrenceScan md5hex l2
                    (firstOccurrenceScan md5hex l1 db).1).2) := by
  intro l1
  induction l1 with
  | nil => intro l2 db; simp [firstOccurrenceScan]
  | cons c cs ih =>
    intro l2 db
    simp only [List.cons_append, firstOccurrenceScan]
    split
    · exact ih l2 db
    · simp only [List.append_eq]
      rw [ih]
      simp

/-- The whole directory walk is the first-occurrence scan of the whole
occurrence sequence. -/
theorem collectDocs_eq_scan (md5hex : String → Hash)
    (split : String → List String) :
    ∀ (files : List (String × String)) (db : Ledger),
      collectDocs md5hex split files db
        = firstOccurrenceScan md5hex (allOccurrences split files) db := by
  intro files
  induction files with
  | nil => intro db; rfl
  | cons fc rest ih =>
    intro db
    obtain ⟨filename, content⟩ := fc
    rw [collectDocs, allOccurrences, firstOccurrenceScan_append,
      ← processChunks_eq_scan, ← ih]

/-- Every chunk the scan keeps had a hash absent from the starting ledger. -/
theorem firstOccurrenceScan_fresh (md5hex : String → Hash) :
    ∀ (l : List Chunk) (db : Ledger),
      ∀ c ∈ (firstOccurrenceScan md5hex l db).2,
        ledgerMem (md5hex c.page_content) db = false := by
  intro l
  induction l with
  | nil => intro db c hc; simp [firstOccurrenceScan] at hc
  | cons a cs ih =>
    intro db c hc
    rw [firstOccurrenceScan] at hc
    split at hc
    · exact ih db c hc
    · rename_i hg
      rcases List.mem_cons.mp hc with h1 | h1
      · subst h1; simpa using hg
      · have := ih _ c h1
        rw [ledgerMem_append] at this
        exact (Bool.or_eq_false_iff.mp this).1

/-- Every chunk the scan keeps is the earliest occurrence bearing its hash:
searching the occurrence sequence for the first occurrence with that hash
finds exactly the kept chunk. -/
theorem firstOccurrenceScan_is_first (md5hex : String → Hash) :
    ∀ (l : List Chunk) (db : Ledger),
      ∀ c ∈ (firstOccurrenceScan md5hex l db).2,
        l.find? (fun c2 => md5hex c2.page_content == md5hex c.page_content)
          = some c := by
  intro l
  induction l with
  | nil => intro db c hc; simp [firstOccurrenceScan] at hc
  | cons a cs ih =>
    intro db c hc
    rw [firstOccurrenceScan] at hc
    split at hc
    · rename_i hg
      have hfresh := firstOccurrenceScan_fresh md5hex cs db c hc
      have hne : md5hex a.page_content ≠ md5hex c.page_content := by
        intro he
        rw [he, hfresh] at hg
        cases hg
      rw [List.find?_cons_of_neg _ (by simp [hne])]
      exact ih db c hc
    · rename_i hg
      rcases List.mem_cons.mp hc with h1 | h1
      · subst h1
        rw [List.find?_cons_of_pos _ (by simp)]
      · have hfresh := firstOccurrenceScan_fresh md5hex cs _ c h1
        rw [ledgerMem_append, ledgerMem_single] at hfresh
        have hne : (md5hex a.page_content == md5hex c.page_content) = false :=
          (Bool.or_eq_false_iff.mp hfresh).2
        rw [List.find?_cons_of_neg _ (by simp [hne])]
        exact ih _ c h1

/-- Claim C9: with a working store, the batch handed to the store is
exactly the first-occurrence scan of the run's occurrence sequence, so of
all chunks sharing a text only the first occurrence encountered is marked
and stored.  Explicitly: the batch's hashes are pairwise distinct, each
batch element is the earliest occurrence bearing its hash (so every later
occurrence of the same text is skipped), and every chunk text whose hash
was not already on disk is represented in the batch. -/
theorem duplicate_chunks_first_occurrence_only
    (md5hex : String → Hash) (split : String → List String)
    (files : List (String × String)) (disk0 : Ledger) :
    (ingestRun md5hex split true files disk0).all_docs
      = (firstOccurrenceScan md5hex (allOccurrences split files) disk0).2 ∧
    ((ingestRun md5hex split true files disk0).all_docs.map
        (fun c => md5hex c.page_content)).Nodup ∧
    (∀ c ∈ (ingestRun md5hex split true files disk0).all_docs,
      (allOccurrences split files).find?
        (fun c2 => md5hex c2.page_content == md5hex c.page_content)
        = some c) ∧
    ∀ fc ∈ files, ∀ t ∈ split fc.2,
      ledgerMem (md5hex t) disk0 = false →
      ∃ c ∈ (ingestRun md5hex split true files disk0).all_docs,
        md5hex c.page_content = md5hex t := by
  have hdocs : (ingestRun md5hex split true files disk0).all_docs
      = (collectDocs md5hex split files disk0).2 := by
    by_cases hE : (collectDocs md5hex split files disk0).2.isEmpty
    · rw [List.isEmpty_iff] at hE
      simp [ingestRun, hE]
    · simp [ingestRun, hE]
  rw [hdocs]
  refine ⟨?_, collectDocs_chunks_nodup md5hex split files disk0, ?_,
    fun fc hfc t ht hfresh =>
      collectDocs_represents md5hex split files disk0 fc hfc t ht hfresh⟩
  · rw [collectDocs_eq_scan]
  · intro c hc
    rw [collectDocs_eq_scan] at hc
    exact firstOccurrenceScan_is_first md5hex (allOccurrences split files)
      disk0 c hc

/-- Claim C10: whatever the outcome of the store write, the ledger written
back to disk (or left there after a crash) extends the loaded one: every
loaded entry survives in place and every added entry has a key that was
not a key before, so nothing is removed or overwritten. -/
theorem ledger_only_grows
    (md5hex : String → Hash) (split : String → List String)
    (storeOk : Bool) (files : List (String × String)) (disk0 : Ledger) :
    ∃ E : Ledger,
      (ingestRun md5hex split storeOk files disk0).diskLedger = disk0 ++ E ∧
      ∀ p ∈ E, ledgerMem p.1 disk0 = false := by
  obtain ⟨E, hE, hfresh⟩ := collectDocs_append_form md5hex split files disk0
  by_cases hEm : (collectDocs md5hex split files disk0).2.isEmpty
  · exact ⟨E, by simp [ingestRun, hEm, hE], hfresh⟩
  · cases storeOk with
    | true => exact ⟨E, by simp [ingestRun, hEm, hE], hfresh⟩
    | false => exact ⟨[], by simp [ingestRun, hEm], by simp⟩

/-- Claim C5 counterexample: the spec's own boundary example — a document
of 11 characters, far below the chunk size — yields one chunk, but the
formula ceil((L - O) / (S - O)) evaluates to ceil(-39 / 450) = 0 at
L = 11, S = 500, O = 50, so the splitter does not produce exactly
ceil((L - O) / (S - O)) chunks for every document. -/
theorem eleven_char_doc_refutes_chunk_formula :
    (slidingSplit 500 50 (List.replicate 11 'a')).length = 1 ∧
    specChunkFormula 11 500 50 = 0 ∧
    ((slidingSplit 500 50 (List.replicate 11 'a')).length : Int)
      ≠ specChunkFormula 11 500 50 := by
  have hg : (List.replicate 11 'a').length ≤ 500 ∨ 500 - 50 = 0 := by
    left; decide
  have h1 : (slidingSplit 500 50 (List.replicate 11 'a')).length = 1 := by
    rw [slidingSplit, dif_pos hg]
    rfl
  have h2 : specChunkFormula 11 500 50 = 0 := by
    unfold specChunkFormula
    rw [Int.ceil_eq_zero_iff]
    constructor <;> norm_num
  refine ⟨h1, h2, ?_⟩
  rw [h1, h2]
  decide

/-- Claim C5 (amended): for every document whose length exceeds the
overlap, the splitter produces exactly ceil((L - O) / (S - O)) chunks
(with overlap smaller than chunk size); for L ≤ O the formula gives a
non-positive value while the splitter still produces the single chunk the
spec's boundary case `L ≤ S` demands. -/
theorem splitter_chunk_count_matches_formula_beyond_overlap
    (S O : Nat) (text : List Char) (hSO : O < S) (hL : O < text.length) :
    ((slidingSplit S O text).length : Int)
      = specChunkFormula text.length S O := by
  rw [slidingSplit_length_aux S O hSO text.length text le_rfl hL]
  unfold specChunkFormula
  have hcl : (text.length : ℚ) - (O : ℚ) = ((text.length - O : Nat) : ℚ) :=
    (Nat.cast_sub (le_of_lt hL)).symm
  have hcs : (S : ℚ) - (O : ℚ) = ((S - O : Nat) : ℚ) :=
    (Nat.cast_sub (le_of_lt hSO)).symm
  rw [hcl, hcs, ceil_ratCast_div (text.length - O) (S - O) (by omega) (by omega)]
  push_cast
  ring

/-- Witness for the amended claim C5 at a concrete input: a 51-character
document with chunk size 500 and overlap 50 satisfies both hypotheses and
the chunk count equals the formula there. -/
theorem splitter_chunk_count_formula_witness :
    50 < 500 ∧ 50 < (List.replicate 51 'a').length ∧
    ((slidingSplit 500 50 (List.replicate 51 'a')).length : Int)
      = specChunkFormula (List.replicate 51 'a').length 500 50 :=
  ⟨by decide, by decide,
    splitter_chunk_count_matches_formula_beyond_overlap 500 50
      (List.replicate 51 'a') (by decide) (by decide)⟩
